import Mathlib

/-!
Verification development for the HORUS position pipeline
(`scripts/compute_positions`): a shallow embedding in Lean 4 of the
rate limiter, the retrying label fetcher, the neighbor-graph builder,
the position normalizer and the stage/pipeline orchestration, together
with proofs that settle the specification claims against the code.

Modelling conventions:
- machine floats become exact arithmetic (`ℚ`, or `ℝ` where the inputs
  are trigonometric);
- wall-clock time is an explicit `ℚ` parameter; `asyncio` suspension
  becomes explicit time arithmetic, and the serialisation enforced by
  `asyncio.Lock` becomes sequential state passing;
- fallible code returns `Option`/`Bool` results instead of raising.
-/

namespace Horus

/-! ## Rate limiter (`fetch_labels.py`, `NeuronpediaClient._wait_for_rate_limit`)

The Python keeps `self._request_times : list[float]` and, under
`self._lock`: reads `now = time.time()`, filters the list to entries with
`now - t < 60`, and if the retained count is `>= self.rate_limit` sleeps
`60 - (now - self._request_times[0]) + 0.1` (guarded by `> 0`) while still
holding the lock; finally it appends `time.time()` (the post-sleep clock)
and returns.  Because the lock is held for the whole body, including the
sleep, calls are fully serialised, so the embedding is a sequential state
machine over exact rational time. -/

/-- Timestamp-window trim: `[t for t in self._request_times if now - t < 60]`
(`fetch_labels.py` line 42). -/
def trimWindow (now : ℚ) (s : List ℚ) : List ℚ :=
  s.filter (fun t => decide (now - t < 60))

/-- One serialised call of `NeuronpediaClient._wait_for_rate_limit`
(`fetch_labels.py` lines 37-50), given the clock value `now` at entry and
the stored timestamp list `s`.  Returns the admission time (the clock at
the final `append`, i.e. `now` plus the sleep actually performed) and the
updated timestamp list.  Mirrors the code exactly: trim once, sleep once
if the trimmed window is full (`len >= rate_limit`), then append the
current clock without re-running the trim-and-check.  `headD 0` stands
for `self._request_times[0]`, which the code only reads when the list is
nonempty (`rate_limit >= 1`). -/
def acquireStep (R : ℕ) (now : ℚ) (s : List ℚ) : ℚ × List ℚ :=
  let s' := trimWindow now s
  if R ≤ s'.length then
    let sleep := 60 - (now - s'.headD 0) + 1 / 10
    let wake := if 0 < sleep then now + sleep else now
    (wake, s' ++ [wake])
  else
    (now, s' ++ [now])

/-- A serialised run of `_wait_for_rate_limit` calls against one client.
`last` is the clock at the previous admission (or the start of the run)
and each list entry `d` is the nonnegative delay between the previous
admission and the moment the next caller enters the critical section
(callers queue on `self._lock`, so the next entry clock is never before
the previous admission).  Returns the list of admission times. -/
def runLimiter (R : ℕ) (last : ℚ) (s : List ℚ) : List ℚ → List ℚ
  | [] => []
  | d :: ds =>
    (acquireStep R (last + d) s).1 ::
      runLimiter R (acquireStep R (last + d) s).1 (acquireStep R (last + d) s).2 ds

/-- Modelled from the spec: the acquire loop described in §4.3, which after
the suspension "retries the check" (re-runs the trim-and-check) before
recording the admission timestamp.  Written with explicit fuel because the
spec's loop has no syntactic bound; every use below supplies ample fuel.
Kept solely for comparison against `acquireStep`, the embedding of the
code. -/
def acquireRetry (R : ℕ) : ℕ → ℚ → List ℚ → ℚ × List ℚ
  | 0, now, s => (now, trimWindow now s ++ [now])
  | fuel + 1, now, s =>
    if (trimWindow now s).length < R then (now, trimWindow now s ++ [now])
    else
      acquireRetry R fuel
        (now + (60 - (now - (trimWindow now s).headD 0) + 1 / 10))
        (trimWindow now s)

/-! ## Retrying fetcher (`fetch_labels.py`, `NeuronpediaClient.fetch_feature`)

`fetch_feature` runs `for attempt in range(self.retry_attempts)`; each
iteration performs one HTTP GET and then: 200 returns the payload; 404
returns `None`; 429 sleeps `int(Retry-After header, default "60")` and
falls through to the next loop iteration; any other status sleeps
`retry_delay * 2 ** attempt` unless this was the last attempt, in which
case it returns `None`; an exception behaves like the other-status case.
If the loop completes, the function returns `None` (line 100).  The
embedding threads the attempt index and the remaining iteration count
(`remaining = retry_attempts - attempt` at entry) and records, besides the
returned value, the number of GETs performed and the sleeps in order. -/

/-- Outcome of one HTTP GET, as discriminated by `fetch_feature`:
`ok` is status 200 with a payload (abstracted to `ℕ`), `notFound` is 404,
`rateLimited` is 429 carrying the parsed `Retry-After` header when
present, `serverError` is any other status, and `exc` is a raised
exception (timeout, transport failure). -/
inductive UpstreamResponse where
  | ok (payload : ℕ)
  | notFound
  | rateLimited (retryAfter : Option ℕ)
  | serverError
  | exc
deriving DecidableEq

/-- Observable trace of one `fetch_feature` call: the value returned to
the caller (the code returns `None` both for 404 and for exhausted
retries), the number of HTTP requests performed, and the list of sleep
durations in order. -/
structure FetchTrace where
  result : Option ℕ
  requests : ℕ
  sleeps : List ℚ
deriving DecidableEq, Repr

/-- The retry loop of `fetch_feature` (`fetch_labels.py` lines 79-100).
`resp attempt` is the response the server gives to the GET issued at loop
index `attempt`; `remaining` counts the loop iterations still to run, so
the loop as a whole is `fetchGo resp n d n 0`. -/
def fetchGo (resp : ℕ → UpstreamResponse) (retryAttempts : ℕ) (retryDelay : ℚ) :
    ℕ → ℕ → FetchTrace
  | 0, _ => ⟨none, 0, []⟩
  | remaining + 1, attempt =>
    match resp attempt with
    | .ok p => ⟨some p, 1, []⟩
    | .notFound => ⟨none, 1, []⟩
    | .rateLimited ra =>
      let t := fetchGo resp retryAttempts retryDelay remaining (attempt + 1)
      ⟨t.result, t.requests + 1, ((ra.getD 60 : ℕ) : ℚ) :: t.sleeps⟩
    | .serverError =>
      if attempt = retryAttempts - 1 then ⟨none, 1, []⟩
      else
        let t := fetchGo resp retryAttempts retryDelay remaining (attempt + 1)
        ⟨t.result, t.requests + 1, retryDelay * 2 ^ attempt :: t.sleeps⟩
    | .exc =>
      if attempt = retryAttempts - 1 then ⟨none, 1, []⟩
      else
        let t := fetchGo resp retryAttempts retryDelay remaining (attempt + 1)
        ⟨t.result, t.requests + 1, retryDelay * 2 ^ attempt :: t.sleeps⟩

/-- One full `fetch_feature` call with policy `{retryAttempts, retryDelay}`
against a server whose answer to the GET of loop index `i` is `resp i`. -/
def fetchFeature (retryAttempts : ℕ) (retryDelay : ℚ)
    (resp : ℕ → UpstreamResponse) : FetchTrace :=
  fetchGo resp retryAttempts retryDelay retryAttempts 0

/-! ## Neighbor graph builder (`compute_umap.py`, `compute_edges`)

`compute_edges` fits `sklearn.neighbors.NearestNeighbors` with
`n_neighbors = top_k + 1` and `metric="cosine"` on the decoder vectors,
queries it on the same vectors, converts `similarities = 1 - distances`,
then loops `for i in range(num_features)`, `for j_idx in range(1, top_k+1)`
(skipping column 0 on the comment "each point is its own neighbor"),
applies the `similarity < min_similarity` threshold, optionally
deduplicates on the canonical pair `(min(i,j), max(i,j))` via a `seen`
set, and appends `{source: i, target: j, weight: similarity}`.

Embedding choices:
- the code's vectors are L2-normalised (`download_sae.py` lines 148-154,
  and the code comment "Since vectors are L2-normalized, cosine
  similarity = dot product"), so cosine distance is embedded as
  `1 - dot u v`;
- `kneighbors` is embedded as exact selection of the `count` candidates
  with smallest distance, ties broken by ascending candidate index (the
  determinism rule of spec §4.2; sklearn leaves the order of exact ties
  unspecified, and in particular does not promise that a query point
  precedes an identical other point);
- everything is generic over a `LinearOrderedField` so that the same
  definitions run on `ℚ` (executable instance) and are stated on `ℝ`
  (trigonometric inputs). -/

/-- Dot product of two coordinate lists. -/
def dotL {α : Type} [LinearOrderedField α] (u v : List α) : α :=
  (List.zipWith (fun a b => a * b) u v).sum

/-- Candidate pool for one `kneighbors` query: every index `j` together
with its cosine distance `1 - vs[i] · vs[j]` to the query index `i`. -/
def cand {α : Type} [LinearOrderedField α] (vs : List (List α)) (i : ℕ) :
    List (ℕ × α) :=
  (List.range vs.length).map (fun j => (j, 1 - dotL (vs.getD i []) (vs.getD j [])))

/-- Extract a candidate of least `(distance, index)` (lexicographically)
from a nonempty pool, returning it together with the remaining pool. -/
def pickMin {α : Type} [LinearOrderedField α] :
    (ℕ × α) → List (ℕ × α) → ((ℕ × α) × List (ℕ × α))
  | best, [] => (best, [])
  | best, c :: rest =>
    if c.2 < best.2 ∨ (c.2 = best.2 ∧ c.1 < best.1) then
      ((pickMin c rest).1, best :: (pickMin c rest).2)
    else
      ((pickMin best rest).1, c :: (pickMin best rest).2)

/-- Selection of the `count` nearest candidates in ascending
`(distance, index)` order. -/
def selectK {α : Type} [LinearOrderedField α] : ℕ → List (ℕ × α) → List (ℕ × α)
  | 0, _ => []
  | _ + 1, [] => []
  | n + 1, c :: rest =>
    (pickMin c rest).1 :: selectK n (pickMin c rest).2

/-- Model of `nn.kneighbors` for query index `i` with
`n_neighbors = count`: the `count` nearest candidates (the query itself
included in the pool, exactly as sklearn queries the fitted data), as
`(index, distance)` pairs in ascending `(distance, index)` order. -/
def kneighborsRow {α : Type} [LinearOrderedField α]
    (vs : List (List α)) (count : ℕ) (i : ℕ) : List (ℕ × α) :=
  selectK count (cand vs i)

/-- The `(i, j, similarity)` triples visited by the double loop of
`compute_edges` lines 151-154, in visit order: for each `i` ascending,
columns `1 .. top_k` of the neighbor matrix (column 0 skipped), with
`similarity = 1 - distance`. -/
def neighborTriples {α : Type} [LinearOrderedField α]
    (vs : List (List α)) (top_k : ℕ) : List (ℕ × ℕ × α) :=
  ((List.range vs.length).map (fun i =>
    ((kneighborsRow vs (top_k + 1) i).drop 1).map
      (fun jd => (i, jd.1, 1 - jd.2)))).flatten

/-- One output edge of `compute_edges`:
`{"source": int(i), "target": int(j), "weight": float(similarity)}`. -/
structure SimEdge (α : Type) where
  source : ℕ
  target : ℕ
  weight : α
deriving DecidableEq, Repr

/-- Threshold/deduplication loop body of `compute_edges` lines 151-171:
drop triples with `similarity < min_similarity`; when `dedupe` is set,
skip a triple whose canonical pair `(min i j, max i j)` is in `seen` and
otherwise add the pair to `seen`; append survivors as edges. -/
def edgeLoop {α : Type} [LinearOrderedField α] (dedupe : Bool) (minSim : α) :
    List (ℕ × ℕ × α) → List (ℕ × ℕ) → List (SimEdge α)
  | [], _ => []
  | t :: rest, seen =>
    if t.2.2 < minSim then edgeLoop dedupe minSim rest seen
    else if dedupe then
      if (min t.1 t.2.1, max t.1 t.2.1) ∈ seen then edgeLoop dedupe minSim rest seen
      else ⟨t.1, t.2.1, t.2.2⟩ ::
        edgeLoop dedupe minSim rest ((min t.1 t.2.1, max t.1 t.2.1) :: seen)
    else ⟨t.1, t.2.1, t.2.2⟩ :: edgeLoop dedupe minSim rest seen

/-- The whole of `compute_edges` (`compute_umap.py` lines 102-176) with
parameters `{top_k := k, min_similarity := minSim, deduplicate := dedupe}`. -/
def computeEdges {α : Type} [LinearOrderedField α]
    (vs : List (List α)) (k : ℕ) (minSim : α) (dedupe : Bool) : List (SimEdge α) :=
  edgeLoop dedupe minSim (neighborTriples vs k) []

/-! ## Position normalizer (`compute_umap.py`, `normalize_positions`)

`normalize_positions` subtracts the per-axis mean (`positions -
positions.mean(axis=0)`), computes `max_abs = np.abs(positions).max()`,
and when `max_abs > 0` multiplies everything by
`target_range[1] / max_abs` with `target_range = (-50.0, 50.0)`
(`config.py` line 153).  Positions are 3D rows. -/

/-- Per-axis mean centering: `positions - positions.mean(axis=0)`. -/
def meanCenter (ps : List (ℚ × ℚ × ℚ)) : List (ℚ × ℚ × ℚ) :=
  ps.map (fun p =>
    (p.1 - (ps.map (fun q => q.1)).sum / ps.length,
     p.2.1 - (ps.map (fun q => q.2.1)).sum / ps.length,
     p.2.2 - (ps.map (fun q => q.2.2)).sum / ps.length))

/-- Largest absolute coordinate, `np.abs(positions).max()` (taken as 0 on
an empty list, which `normalize_positions` is never given). -/
def maxAbsCoord (ps : List (ℚ × ℚ × ℚ)) : ℚ :=
  (ps.map (fun p => max |p.1| (max |p.2.1| |p.2.2|))).foldr max 0

/-- The whole of `normalize_positions` (`compute_umap.py` lines 74-99)
with `targetMax = target_range[1]`. -/
def normalizePositions (targetMax : ℚ) (ps : List (ℚ × ℚ × ℚ)) :
    List (ℚ × ℚ × ℚ) :=
  if 0 < maxAbsCoord (meanCenter ps) then
    (meanCenter ps).map (fun p =>
      (p.1 * (targetMax / maxAbsCoord (meanCenter ps)),
       p.2.1 * (targetMax / maxAbsCoord (meanCenter ps)),
       p.2.2 * (targetMax / maxAbsCoord (meanCenter ps))))
  else meanCenter ps

/-! ## Stage orchestration (`run_pipeline.py`, `download_sae.py`)

Stage 1 of `run_layer_pipeline` (lines 70-77) calls
`download_decoder_vectors` when `force or not vectors_path.exists()`; but
`download_decoder_vectors` itself (`download_sae.py` lines 100-104) takes
no force flag and returns the cached `decoder_vectors.npy` whenever it
exists, performing no download and no write.  Stage 2's
`compute_layer_positions` (`compute_umap.py` line 207) does thread the
flag: it recomputes unless `not force_recompute and` both cache files
exist.  Cache presence and the flag are embedded as booleans. -/

/-- Remote-fetch effect of a stage call: whether anything was fetched
from the network and whether the cached artifact file was (re)written. -/
structure StageEffect where
  fetchedRemote : Bool
  wroteArtifact : Bool
deriving DecidableEq, Repr

/-- Effect of `download_decoder_vectors` (`download_sae.py` lines
100-104 and 157): early-returns the cached artifact when it exists,
else downloads and writes it.  There is no force parameter. -/
def downloadDecoderVectors (cacheExists : Bool) : StageEffect :=
  if cacheExists then ⟨false, false⟩ else ⟨true, true⟩

/-- Effect of pipeline stage 1, AcquireVectors (`run_pipeline.py` lines
70-77): call `download_decoder_vectors` when `force or not
vectors_path.exists()`, else skip. -/
def acquireVectorsStage (force cacheExists : Bool) : StageEffect :=
  if force || !cacheExists then downloadDecoderVectors cacheExists
  else ⟨false, false⟩

/-- Whether `compute_layer_positions` recomputes rather than loading its
cache (`compute_umap.py` line 207: load only when `not force_recompute`
and both cache files exist). -/
def positionsStageRecomputes (forceRecompute cacheExists : Bool) : Bool :=
  !(!forceRecompute && cacheExists)

/-- One unit's stage sequence inside the `try` of `run_layer_pipeline`
(lines 64-147): stages run in order; `none` is a stage that completes,
`some e` one that raises error code `e`.  The first raise aborts the
rest and is caught by the `except` (line 143), which returns `False`.
Result: (returned success flag, number of stages that started). -/
def runLayerStages : List (Option ℕ) → Bool × ℕ
  | [] => (true, 0)
  | none :: rest => ((runLayerStages rest).1, (runLayerStages rest).2 + 1)
  | some _ :: _ => (false, 1)

/-- The multi-unit loop of `run_pipeline` (lines 203-220): units are
`(layer, stages)` pairs processed sequentially; each layer is appended to
`successful` or `failed` according to `run_layer_pipeline`'s flag. -/
def runPipelineUnits : List (ℕ × List (Option ℕ)) → List ℕ × List ℕ
  | [] => ([], [])
  | u :: rest =>
    if (runLayerStages u.2).1 then
      (u.1 :: (runPipelineUnits rest).1, (runPipelineUnits rest).2)
    else
      ((runPipelineUnits rest).1, u.1 :: (runPipelineUnits rest).2)

/-- Process exit signal of `main` (`run_pipeline.py` lines 310-311):
`sys.exit(1)` when `result["failed"]` is nonempty, else the default
exit 0. -/
def pipelineExitCode (units : List (ℕ × List (Option ℕ))) : ℕ :=
  if (runPipelineUnits units).2 = [] then 0 else 1

/-- Canonical unordered index pair of an edge, `(min(i,j), max(i,j))`,
exactly the key used by the `seen` set of `compute_edges`. -/
def canonPair (e : SimEdge ℚ) : ℕ × ℕ :=
  (min e.source e.target, max e.source e.target)

/-! ## Theorems -/

/-- Against a server that always answers 429, every loop iteration sleeps
the parsed Retry-After (default 60) and then falls through to the next
iteration of `for attempt in range(retry_attempts)`, so the whole call
performs exactly `retryAttempts` requests and returns `None`. -/
theorem fetchGo_rateLimited (ra : Option ℕ) (n : ℕ) (d : ℚ) :
    ∀ (remaining attempt : ℕ),
      fetchGo (fun _ => .rateLimited ra) n d remaining attempt
        = ⟨none, remaining, List.replicate remaining ((ra.getD 60 : ℕ) : ℚ)⟩ := by
  intro remaining
  induction remaining with
  | zero => intro attempt; rfl
  | succ r ih =>
    intro attempt
    simp [fetchGo, ih (attempt + 1), List.replicate_succ]

/-- Against a server that always answers a non-429 error status, the loop
performs all `n` attempts, sleeping `d * 2 ^ attempt` after every attempt
but the last, and returns `None`. -/
theorem fetchGo_serverError (n : ℕ) (d : ℚ) :
    ∀ (remaining attempt : ℕ), attempt + remaining = n → 1 ≤ remaining →
      fetchGo (fun _ => .serverError) n d remaining attempt
        = ⟨none, remaining, (List.range (remaining - 1)).map (fun i => d * 2 ^ (attempt + i))⟩ := by
  intro remaining
  induction remaining with
  | zero => intro _ _ h; omega
  | succ r ih =>
    intro attempt hsum _
    match r, ih with
    | 0, _ =>
      have hlast : attempt = n - 1 := by omega
      simp [fetchGo, hlast]
    | r' + 1, ih =>
      have hlast : ¬ attempt = n - 1 := by omega
      have hrec := ih (attempt + 1) (by omega) (by omega)
      rw [fetchGo]
      dsimp only
      rw [if_neg hlast, hrec]
      simp only [FetchTrace.mk.injEq, true_and]
      have hr : r' + 1 + 1 - 1 = r' + 1 - 1 + 1 := by omega
      rw [hr, List.range_succ_eq_map, List.map_cons, List.map_map]
      congr 1
      apply List.map_congr_left
      intro i _
      simp only [Function.comp_apply]
      have h2 : attempt + 1 + i = attempt + (i + 1) := by omega
      rw [h2]

/-- Exceptions (timeouts, transport failures) take the same branch shape
as non-429 error statuses: all `n` attempts, backoff sleeps between,
`None` at the end. -/
theorem fetchGo_exc (n : ℕ) (d : ℚ) :
    ∀ (remaining attempt : ℕ), attempt + remaining = n → 1 ≤ remaining →
      fetchGo (fun _ => .exc) n d remaining attempt
        = ⟨none, remaining, (List.range (remaining - 1)).map (fun i => d * 2 ^ (attempt + i))⟩ := by
  intro remaining
  induction remaining with
  | zero => intro _ _ h; omega
  | succ r ih =>
    intro attempt hsum _
    match r, ih with
    | 0, _ =>
      have hlast : attempt = n - 1 := by omega
      simp [fetchGo, hlast]
    | r' + 1, ih =>
      have hlast : ¬ attempt = n - 1 := by omega
      have hrec := ih (attempt + 1) (by omega) (by omega)
      rw [fetchGo]
      dsimp only
      rw [if_neg hlast, hrec]
      simp only [FetchTrace.mk.injEq, true_and]
      have hr : r' + 1 + 1 - 1 = r' + 1 - 1 + 1 := by omega
      rw [hr, List.range_succ_eq_map, List.map_cons, List.map_map]
      congr 1
      apply List.map_congr_left
      intro i _
      simp only [Function.comp_apply]
      have h2 : attempt + 1 + i = attempt + (i + 1) := by omega
      rw [h2]

/-- Claim C1, counterexample.  The rate-limited (429) branch of
`fetch_feature` sits inside the bounded loop
`for attempt in range(self.retry_attempts)`: with `retry_attempts = 3`
and a server that always answers 429, the call terminates after exactly
3 requests (sleeping the default 60s after each, or the Retry-After
value when the header is present) and resolves to `None` — it is not
retried indefinitely, and each 429 retry does consume an attempt. -/
theorem fetch_always_rateLimited_terminates :
    fetchFeature 3 1 (fun _ => .rateLimited none) = ⟨none, 3, [60, 60, 60]⟩
    ∧ fetchFeature 3 1 (fun _ => .rateLimited (some 7)) = ⟨none, 3, [7, 7, 7]⟩ := by
  constructor <;> rfl

/-- Claim C1, amended.  On a 429 the fetcher suspends for the
server-indicated Retry-After duration when present (else the default
60s) and retries, but the retry consumes an attempt of the same bounded
loop: a resource that always answers rate-limited is attempted exactly
`retryAttempts` times, with a suspension after every attempt (including
the last), and then resolves to `None` without raising. -/
theorem fetch_rateLimited_consumes_attempts (n : ℕ) (d : ℚ) (ra : Option ℕ) :
    fetchFeature n d (fun _ => .rateLimited ra)
      = ⟨none, n, List.replicate n ((ra.getD 60 : ℕ) : ℚ)⟩ :=
  fetchGo_rateLimited ra n d n 0

/-- Claim C7.  A resource that always answers 404 resolves after exactly
one request with no suspensions; a resource that always answers a
generic error (non-429 status, or a raised exception) is attempted
exactly `maxAttempts` times with suspensions `baseDelay * 2 ^ attempt`
between consecutive attempts (exponents `0 .. maxAttempts - 2`), and the
call then returns `None` to its caller instead of raising (the code maps
both the 404 outcome and exhausted retries to the same `None`). -/
theorem fetch_terminal_policy (n : ℕ) (d : ℚ) (hn : 1 ≤ n) :
    fetchFeature n d (fun _ => .notFound) = ⟨none, 1, []⟩
    ∧ fetchFeature n d (fun _ => .serverError)
        = ⟨none, n, (List.range (n - 1)).map (fun i => d * 2 ^ i)⟩
    ∧ fetchFeature n d (fun _ => .exc)
        = ⟨none, n, (List.range (n - 1)).map (fun i => d * 2 ^ i)⟩ := by
  refine ⟨?_, ?_, ?_⟩
  · obtain ⟨m, rfl⟩ : ∃ m, n = m + 1 := ⟨n - 1, by omega⟩
    rfl
  · have h := fetchGo_serverError n d n 0 (by omega) hn
    simpa [fetchFeature] using h
  · have h := fetchGo_exc n d n 0 (by omega) hn
    simpa [fetchFeature] using h

/-- Witness for `fetch_terminal_policy` at the concrete policy
`maxAttempts = 3`, `baseDelay = 1`. -/
theorem fetch_terminal_policy_witness :
    fetchFeature 3 1 (fun _ => .notFound) = ⟨none, 1, []⟩
    ∧ fetchFeature 3 1 (fun _ => .serverError)
        = ⟨none, 3, (List.range 2).map (fun i => (1 : ℚ) * 2 ^ i)⟩
    ∧ fetchFeature 3 1 (fun _ => .exc)
        = ⟨none, 3, (List.range 2).map (fun i => (1 : ℚ) * 2 ^ i)⟩ :=
  fetch_terminal_policy 3 1 (by norm_num)

/-- Claim C2.  With `force = true` and an existing cached
`decoder_vectors.npy`, stage 1 of `run_layer_pipeline` does call
`download_decoder_vectors`, but that function early-returns the cache
(it has no force parameter), so nothing is fetched and the artifact is
not rewritten — while stage 2 (`compute_layer_positions`) does honor its
`force_recompute` flag and recomputes over an existing cache. -/
theorem force_acquireVectors_uses_cache :
    acquireVectorsStage true true = ⟨false, false⟩
    ∧ downloadDecoderVectors true = ⟨false, false⟩
    ∧ acquireVectorsStage true false = ⟨true, true⟩
    ∧ positionsStageRecomputes true true = true := by
  refine ⟨rfl, rfl, rfl, rfl⟩

/-- Claim C6, counterexample.  After its single sleep,
`_wait_for_rate_limit` records the new timestamp without re-running the
trim-and-check: at `R = 1`, entry clock `0` and stored window `[0]` (the
state after one admission at time 0), the code leaves the stale
timestamp in place, recording `[0, 60.1]`, whereas the spec's
retry-the-check loop would trim it and record `[60.1]`. -/
theorem acquireStep_no_recheck_cex :
    acquireStep 1 (0 : ℚ) [0] = (601 / 10, [0, 601 / 10])
    ∧ acquireRetry 1 2 (0 : ℚ) [0] = (601 / 10, [601 / 10])
    ∧ (acquireStep 1 (0 : ℚ) [0]).2 ≠ (acquireRetry 1 2 (0 : ℚ) [0]).2 := by
  have h1 : acquireStep 1 (0 : ℚ) [0] = (601 / 10, [0, 601 / 10]) := by
    norm_num [acquireStep, trimWindow]
  have h2 : acquireRetry 1 2 (0 : ℚ) [0] = (601 / 10, [601 / 10]) := by
    norm_num [acquireRetry, trimWindow]
  refine ⟨h1, h2, ?_⟩
  rw [h1, h2]
  intro h
  simpa using congrArg List.length h

/-- Filtering by a predicate that is implied by the counted one does not
change the count. -/
theorem countP_filter_of_imp (p q : ℚ → Bool) (s : List ℚ)
    (h : ∀ x ∈ s, p x = true → q x = true) :
    (s.filter q).countP p = s.countP p := by
  induction s with
  | nil => rfl
  | cons a l ih =>
    have ih2 := ih (fun x hx => h x (List.mem_cons_of_mem a hx))
    by_cases hq : q a = true
    · rw [List.filter_cons_of_pos hq, List.countP_cons, List.countP_cons, ih2]
    · have hp : ¬ p a = true := fun hpa => hq (h a (List.mem_cons_self a l) hpa)
      rw [List.filter_cons_of_neg (by simpa using hq), List.countP_cons, ih2]
      simp [hp]

/-- Head-with-default of a nonempty list is a member. -/
theorem headD_mem {s : List ℚ} (h : s ≠ []) : s.headD 0 ∈ s := by
  cases s with
  | nil => exact absurd rfl h
  | cons a l => exact List.mem_cons_self a l

/-- An `acquireStep` call never admits before its entry clock (the sleep,
when taken, is forward in time). -/
theorem acquireStep_fst_ge (R : ℕ) (now : ℚ) (s : List ℚ) :
    now ≤ (acquireStep R now s).1 := by
  simp only [acquireStep]
  split
  · split
    · rename_i hpos
      dsimp only
      linarith
    · exact le_refl now
  · exact le_refl now

/-- The stored list after an `acquireStep` call is always the trimmed
window with the admission time appended (the stale head is kept in the
full-window branch: no re-trim happens after the sleep). -/
theorem acquireStep_snd_eq (R : ℕ) (now : ℚ) (s : List ℚ) :
    (acquireStep R now s).2 = trimWindow now s ++ [(acquireStep R now s).1] := by
  simp only [acquireStep]
  split
  · rfl
  · rfl

/-- Window invariant preservation: if at most `R` of the stored
timestamps lie within 60 seconds of the previous admission `t`, then
after an `acquireStep` entered at clock `now ≥ t`, at most `R` of the
stored timestamps lie within 60 seconds of the new admission. -/
theorem acquireStep_window (R : ℕ) (t now : ℚ) (s : List ℚ)
    (hR : 1 ≤ R) (ht : t ≤ now)
    (hinv : s.countP (fun x => decide (t - x < 60)) ≤ R) :
    (acquireStep R now s).2.countP
      (fun x => decide ((acquireStep R now s).1 - x < 60)) ≤ R := by
  have hlen : (trimWindow now s).length ≤ R := by
    have h1 : (trimWindow now s).length
        = s.countP (fun x => decide (now - x < 60)) := by
      rw [trimWindow, List.countP_eq_length_filter]
    have h2 : s.countP (fun x => decide (now - x < 60))
        ≤ s.countP (fun x => decide (t - x < 60)) := by
      apply List.countP_mono_left
      intro x _ hx
      simp only [decide_eq_true_eq] at hx ⊢
      linarith
    omega
  simp only [acquireStep]
  split
  · rename_i hfull
    have hne : trimWindow now s ≠ [] := by
      intro he
      rw [he] at hfull
      simp at hfull
      omega
    obtain ⟨a, l, hsl⟩ := List.exists_cons_of_ne_nil hne
    have hmem : a ∈ trimWindow now s := by rw [hsl]; exact List.mem_cons_self a l
    have hlt : now - a < 60 := by
      have := (List.mem_filter.mp hmem).2
      simpa using this
    have hpos : 0 < 60 - (now - (trimWindow now s).headD 0) + 1 / 10 := by
      rw [hsl]
      simp only [List.headD_cons]
      linarith
    rw [if_pos hpos]
    dsimp only
    rw [hsl]
    simp only [List.headD_cons, List.countP_append, List.countP_cons, List.countP_nil]
    have hselfin : decide ((now + (60 - (now - a) + 1 / 10))
        - (now + (60 - (now - a) + 1 / 10)) < (60 : ℚ)) = true := by
      simp
    have hheadout : decide ((now + (60 - (now - a) + 1 / 10)) - a < (60 : ℚ)) = false := by
      simp only [decide_eq_false_iff_not]
      intro hcon
      have : (60 : ℚ) + 1 / 10 < 60 := by linarith
      linarith
    rw [hselfin, hheadout]
    have hlenR : (trimWindow now s).length = R := le_antisymm hlen hfull
    have hlll : l.length + 1 = R := by
      rw [hsl] at hlenR
      simpa using hlenR
    have hcl := List.countP_le_length
      (fun x => decide ((now + (60 - (now - a) + 1 / 10)) - x < (60 : ℚ))) (l := l)
    have hred1 : (if (true = true) then 1 else 0) = 1 := by simp
    have hred2 : (if (false = true) then 1 else 0) = 0 := by simp
    rw [hred1, hred2]
    omega
  · rename_i hnotfull
    dsimp only
    simp only [List.countP_append, List.countP_cons, List.countP_nil]
    have hself : decide ((now : ℚ) - now < 60) = true := by simp
    rw [hself]
    have hcl := List.countP_le_length
      (fun x => decide ((now : ℚ) - x < 60)) (l := trimWindow now s)
    simp only [if_true]
    omega

/-- Every admission in a serialised run happens at or after the starting
clock (admission times are monotone along the run). -/
theorem runLimiter_ge (R : ℕ) :
    ∀ (ds : List ℚ) (t : ℚ) (s : List ℚ), (∀ d ∈ ds, 0 ≤ d) →
      ∀ x ∈ runLimiter R t s ds, t ≤ x := by
  intro ds
  induction ds with
  | nil =>
    intro t s _ x hx
    simp [runLimiter] at hx
  | cons d ds ih =>
    intro t s hds x hx
    simp only [runLimiter, List.mem_cons] at hx
    have hd : 0 ≤ d := hds d (List.mem_cons_self _ _)
    have h1 : t ≤ (acquireStep R (t + d) s).1 :=
      le_trans (by linarith) (acquireStep_fst_ge R (t + d) s)
    rcases hx with rfl | hx
    · exact h1
    · exact le_trans h1
        (ih (acquireStep R (t + d) s).1 (acquireStep R (t + d) s).2
          (fun e he => hds e (List.mem_cons_of_mem _ he)) x hx)

/-- Run-level window bound, strengthened for the induction: starting from
a stored list `s` of which at most `R` timestamps are within 60s of the
previous admission `t`, at every admission of the run the number of
in-window admissions of the run so far plus the number of in-window
initial timestamps stays at most `R`. -/
theorem runLimiter_window_aux (R : ℕ) (hR : 1 ≤ R) :
    ∀ (ds : List ℚ) (t : ℚ) (s : List ℚ),
      (∀ d ∈ ds, 0 ≤ d) →
      s.countP (fun x => decide (t - x < 60)) ≤ R →
      ∀ i (h : i < (runLimiter R t s ds).length),
        ((runLimiter R t s ds).take (i + 1)).countP
            (fun x => decide ((runLimiter R t s ds).get ⟨i, h⟩ - x < 60))
          + s.countP (fun x => decide ((runLimiter R t s ds).get ⟨i, h⟩ - x < 60))
          ≤ R := by
  intro ds
  induction ds with
  | nil =>
    intro t s _ _ i h
    simp [runLimiter] at h
  | cons d ds ih =>
    intro t s hds hinv i h
    have hd : 0 ≤ d := hds d (List.mem_cons_self _ _)
    have ht : t ≤ t + d := by linarith
    have hstep := acquireStep_window R t (t + d) s hR ht hinv
    have hsnd := acquireStep_snd_eq R (t + d) s
    have hfst := acquireStep_fst_ge R (t + d) s
    cases i with
    | zero =>
      simp only [runLimiter, List.take_succ_cons, List.take_zero, List.get]
      simp only [List.countP_cons, List.countP_nil]
      have hself : decide ((acquireStep R (t + d) s).1
          - (acquireStep R (t + d) s).1 < (60 : ℚ)) = true := by simp
      rw [hself]
      have hsplit : s.countP
            (fun x => decide ((acquireStep R (t + d) s).1 - x < 60))
          = (trimWindow (t + d) s).countP
            (fun x => decide ((acquireStep R (t + d) s).1 - x < 60)) := by
        refine (countP_filter_of_imp _ _ s ?_).symm
        intro x _ hx
        simp only [decide_eq_true_eq] at hx ⊢
        linarith
      rw [hsnd, List.countP_append, List.countP_cons, List.countP_nil, hself] at hstep
      rw [hsplit]
      simp only [if_true] at hstep ⊢
      omega
    | succ j =>
      simp only [runLimiter, List.take_succ_cons, List.get_cons_succ]
      have hj : j < (runLimiter R (acquireStep R (t + d) s).1
          (acquireStep R (t + d) s).2 ds).length := by
        simpa [runLimiter] using Nat.lt_of_succ_lt_succ h
      have hIH := ih (acquireStep R (t + d) s).1 (acquireStep R (t + d) s).2
        (fun e he => hds e (List.mem_cons_of_mem _ he)) hstep j hj
      have htau : (t + d) ≤ (runLimiter R (acquireStep R (t + d) s).1
          (acquireStep R (t + d) s).2 ds).get ⟨j, hj⟩ := by
        refine le_trans hfst ?_
        exact runLimiter_ge R ds (acquireStep R (t + d) s).1
          (acquireStep R (t + d) s).2
          (fun e he => hds e (List.mem_cons_of_mem _ he))
          _ (List.get_mem _ j hj)
      have hsplit : s.countP (fun x =>
            decide ((runLimiter R (acquireStep R (t + d) s).1
              (acquireStep R (t + d) s).2 ds).get ⟨j, hj⟩ - x < 60))
          = (trimWindow (t + d) s).countP (fun x =>
            decide ((runLimiter R (acquireStep R (t + d) s).1
              (acquireStep R (t + d) s).2 ds).get ⟨j, hj⟩ - x < 60)) := by
        refine (countP_filter_of_imp _ _ s ?_).symm
        intro x _ hx
        simp only [decide_eq_true_eq] at hx ⊢
        linarith
      show List.countP
          (fun x => decide ((runLimiter R (acquireStep R (t + d) s).1
            (acquireStep R (t + d) s).2 ds).get ⟨j, hj⟩ - x < 60))
          ((acquireStep R (t + d) s).1 ::
            List.take (j + 1) (runLimiter R (acquireStep R (t + d) s).1
              (acquireStep R (t + d) s).2 ds)) +
        List.countP
          (fun x => decide ((runLimiter R (acquireStep R (t + d) s).1
            (acquireStep R (t + d) s).2 ds).get ⟨j, hj⟩ - x < 60)) s ≤ R
      have hcons := List.countP_cons
        (fun x => decide ((runLimiter R (acquireStep R (t + d) s).1
          (acquireStep R (t + d) s).2 ds).get ⟨j, hj⟩ - x < 60))
        ((acquireStep R (t + d) s).1)
        (List.take (j + 1) (runLimiter R (acquireStep R (t + d) s).1
          (acquireStep R (t + d) s).2 ds))
      have hP2 := congrArg (List.countP
        (fun x => decide ((runLimiter R (acquireStep R (t + d) s).1
          (acquireStep R (t + d) s).2 ds).get ⟨j, hj⟩ - x < 60))) hsnd
      have happ := List.countP_append
        (fun x => decide ((runLimiter R (acquireStep R (t + d) s).1
          (acquireStep R (t + d) s).2 ds).get ⟨j, hj⟩ - x < 60))
        (trimWindow (t + d) s) [(acquireStep R (t + d) s).1]
      have hone := List.countP_cons
        (fun x => decide ((runLimiter R (acquireStep R (t + d) s).1
          (acquireStep R (t + d) s).2 ds).get ⟨j, hj⟩ - x < 60))
        ((acquireStep R (t + d) s).1) ([] : List ℚ)
      have hnil := List.countP_nil
        (fun x => decide ((runLimiter R (acquireStep R (t + d) s).1
          (acquireStep R (t + d) s).2 ds).get ⟨j, hj⟩ - x < 60))
      omega

/-- Claim C5.  In any serialised sequence of `_wait_for_rate_limit` calls
on one client (nonnegative delays between an admission and the next
entry into the locked section, limit `R ≥ 1`, initially empty window),
at the instant any call is admitted the number of admissions whose
timestamps lie within the trailing 60-second window is at most `R`; and
concretely, with `R = 5` and 6 back-to-back calls the 6th admission is
at least 60 seconds after the 1st. -/
theorem rateLimiter_window_bound (R : ℕ) (start : ℚ) (ds : List ℚ)
    (hR : 1 ≤ R) (hds : ∀ d ∈ ds, 0 ≤ d) :
    (∀ i (h : i < (runLimiter R start [] ds).length),
        ((runLimiter R start [] ds).take (i + 1)).countP
          (fun x => decide ((runLimiter R start [] ds).get ⟨i, h⟩ - x < 60)) ≤ R)
    ∧ 60 ≤ (runLimiter 5 0 [] (List.replicate 6 0)).getD 5 0
          - (runLimiter 5 0 [] (List.replicate 6 0)).getD 0 0 := by
  constructor
  · intro i h
    have haux := runLimiter_window_aux R hR ds start [] hds (by simp) i h
    simpa using haux
  · have hconc : runLimiter 5 0 [] (List.replicate 6 0)
        = [0, 0, 0, 0, 0, 601 / 10] := by
      norm_num [runLimiter, acquireStep, trimWindow, List.replicate]
    rw [hconc]
    norm_num [List.getD]

/-- Witness for `rateLimiter_window_bound`: the concrete back-to-back run
with limit 5. -/
theorem rateLimiter_window_bound_witness :
    60 ≤ (runLimiter 5 0 [] (List.replicate 6 0)).getD 5 0
        - (runLimiter 5 0 [] (List.replicate 6 0)).getD 0 0 :=
  (rateLimiter_window_bound 5 0 (List.replicate 6 0) (by norm_num)
    (by intro d hd; rw [List.eq_of_mem_replicate hd])).2

/-- Claim C6, amended.  Each `_wait_for_rate_limit` call trims once at
entry; if the trimmed window holds fewer than `R` timestamps it records
the entry clock and returns at once; otherwise it suspends once, until
`60 - age(oldest) + 0.1` has elapsed (so the admission clock is exactly
`oldest + 60.1`), and then records the wake-up clock directly, without
re-running the trim-and-check — the stale entries are only trimmed by
the next call.  The whole sequence runs under one `asyncio.Lock`, held
through the sleep, which is what the serialised embedding models. -/
theorem acquireStep_sleep_once (R : ℕ) (now : ℚ) (s : List ℚ) (hR : 1 ≤ R) :
    (R ≤ (trimWindow now s).length →
      acquireStep R now s
        = ((trimWindow now s).headD 0 + 60 + 1 / 10,
           trimWindow now s ++ [(trimWindow now s).headD 0 + 60 + 1 / 10]))
    ∧ ((trimWindow now s).length < R →
      acquireStep R now s = (now, trimWindow now s ++ [now])) := by
  constructor
  · intro hfull
    have hne : trimWindow now s ≠ [] := by
      intro he
      rw [he] at hfull
      simp at hfull
      omega
    have hmem : (trimWindow now s).headD 0 ∈ trimWindow now s := headD_mem hne
    have hlt : now - (trimWindow now s).headD 0 < 60 := by
      have := (List.mem_filter.mp hmem).2
      simpa using this
    have hpos : 0 < 60 - (now - (trimWindow now s).headD 0) + 1 / 10 := by linarith
    have harith : now + (60 - (now - (trimWindow now s).headD 0) + 1 / 10)
        = (trimWindow now s).headD 0 + 60 + 1 / 10 := by ring
    simp only [acquireStep, if_pos hfull, if_pos hpos, harith]
  · intro hlt
    simp only [acquireStep, if_neg (not_le.mpr hlt)]

/-- Witness for `acquireStep_sleep_once` at `R = 1`, entry clock 0,
stored window `[0]`. -/
theorem acquireStep_sleep_once_witness :
    acquireStep 1 (0 : ℚ) [0] = (601 / 10, [0, 601 / 10]) :=
  ((acquireStep_sleep_once 1 0 [0] (le_refl 1)).1
    (by norm_num [trimWindow])).trans (by norm_num [trimWindow])

/-- Every edge emitted by the threshold/dedup loop survived the
`similarity < min_similarity` test, so its weight is at least the
threshold. -/
theorem edgeLoop_weight (dedupe : Bool) (m : ℚ) :
    ∀ (ps : List (ℕ × ℕ × ℚ)) (seen : List (ℕ × ℕ)),
      ∀ e ∈ edgeLoop dedupe m ps seen, m ≤ e.weight := by
  intro ps
  induction ps with
  | nil =>
    intro seen e he
    simp [edgeLoop] at he
  | cons t rest ih =>
    intro seen e he
    rw [edgeLoop] at he
    split at he
    · exact ih seen e he
    · rename_i hkeep
      split at he
      · split at he
        · exact ih seen e he
        · rcases List.mem_cons.mp he with rfl | hmem
          · exact le_of_not_lt hkeep
          · exact ih _ e hmem
      · rcases List.mem_cons.mp he with rfl | hmem
        · exact le_of_not_lt hkeep
        · exact ih seen e hmem

/-- With deduplication on, the loop's output has pairwise distinct
canonical pairs, and no output pair is already in the incoming `seen`
set. -/
theorem edgeLoop_dedup (m : ℚ) :
    ∀ (ps : List (ℕ × ℕ × ℚ)) (seen : List (ℕ × ℕ)),
      (edgeLoop true m ps seen).Pairwise (fun e f => canonPair e ≠ canonPair f)
      ∧ ∀ e ∈ edgeLoop true m ps seen, canonPair e ∉ seen := by
  intro ps
  induction ps with
  | nil =>
    intro seen
    constructor
    · simp [edgeLoop]
    · intro e he
      simp [edgeLoop] at he
  | cons t rest ih =>
    intro seen
    rw [edgeLoop]
    split
    · exact ih seen
    · split
      · split
        · exact ih seen
        · rename_i hnew
          constructor
          · refine List.Pairwise.cons ?_ (ih ((min t.1 t.2.1, max t.1 t.2.1) :: seen)).1
            intro f hf hcp
            have hnotin := (ih ((min t.1 t.2.1, max t.1 t.2.1) :: seen)).2 f hf
            rw [← hcp] at hnotin
            exact hnotin (List.mem_cons_self _ _)
          · intro e he
            rcases List.mem_cons.mp he with rfl | hmem
            · exact hnew
            · have hnotin := (ih ((min t.1 t.2.1, max t.1 t.2.1) :: seen)).2 e hmem
              intro hcon
              exact hnotin (List.mem_cons_of_mem _ hcon)
      · rename_i hfalse
        exact absurd rfl hfalse

/-- Claim C3.  For every input vector list and parameters, every edge
emitted by `compute_edges` has weight at least `min_similarity`, and with
deduplication enabled no two output edges share the same unordered index
pair. -/
theorem computeEdges_invariants (vs : List (List ℚ)) (k : ℕ) (m : ℚ)
    (dedupe : Bool) :
    (∀ e ∈ computeEdges vs k m dedupe, m ≤ e.weight)
    ∧ (computeEdges vs k m true).Pairwise
        (fun e f => canonPair e ≠ canonPair f) := by
  constructor
  · intro e he
    exact edgeLoop_weight dedupe m (neighborTriples vs k) [] e he
  · exact (edgeLoop_dedup m (neighborTriples vs k) []).1

/-- Claim C4, code evaluation at the failing input.  `compute_edges`
skips position 0 of each neighbor row, trusting the comment "each point
is its own neighbor"; on the duplicate-vector input
`[[1,0], [1,0], [0,1]]` with `top_k = 1`, `min_similarity = 1/2`,
deduplication on, the identical vector 0 occupies position 0 of row 1,
so the skipped entry is not the query itself and the self-edge
`(1, 1, 1)` is emitted. -/
theorem computeEdges_duplicate_self_edge :
    computeEdges [[1, 0], [1, 0], [0, 1]] 1 (1 / 2 : ℚ) true
      = [⟨0, 1, 1⟩, ⟨1, 1, 1⟩]
    ∧ ∃ e ∈ computeEdges [[1, 0], [1, 0], [0, 1]] 1 (1 / 2 : ℚ) true,
        e.source = e.target := by
  have h : computeEdges [[1, 0], [1, 0], [0, 1]] 1 (1 / 2 : ℚ) true
      = [⟨0, 1, 1⟩, ⟨1, 1, 1⟩] := by
    norm_num [computeEdges, neighborTriples, kneighborsRow, selectK, pickMin,
      edgeLoop, cand, dotL, List.range_succ, Prod.mk.injEq]
    decide
  refine ⟨h, ⟨⟨1, 1, 1⟩, ?_, rfl⟩⟩
  rw [h]
  simp

/-- When stage `i` is the first raising stage of a unit, exactly stages
`0 .. i` start, the rest are aborted, and the unit returns the failure
flag instead of raising. -/
theorem runLayerStages_first_failure :
    ∀ (stages : List (Option ℕ)) (i : ℕ) (e : ℕ),
      stages[i]? = some (some e) →
      (∀ j < i, stages[j]? = some none) →
      runLayerStages stages = (false, i + 1) := by
  intro stages
  induction stages with
  | nil =>
    intro i e hi _
    simp at hi
  | cons a rest ih =>
    intro i e hi hprev
    cases i with
    | zero =>
      rw [List.getElem?_cons_zero] at hi
      obtain rfl : a = some e := by simpa using hi
      rfl
    | succ i' =>
      have ha : a = none := by
        have := hprev 0 (by omega)
        simpa using this
      subst ha
      rw [List.getElem?_cons_succ] at hi
      have hprev' : ∀ j < i', rest[j]? = some none := by
        intro j hj
        have := hprev (j + 1) (by omega)
        simpa using this
      have hrec := ih i' e hi hprev'
      show ((runLayerStages rest).1, (runLayerStages rest).2 + 1) = (false, i' + 1 + 1)
      rw [hrec]

/-- The multi-unit loop classifies every unit, in order, as successful or
failed according to its own flag; no unit is skipped because an earlier
one failed. -/
theorem runPipelineUnits_partition :
    ∀ units : List (ℕ × List (Option ℕ)),
      (runPipelineUnits units).1
          = (units.filter (fun u => (runLayerStages u.2).1)).map Prod.fst
      ∧ (runPipelineUnits units).2
          = (units.filter (fun u => !(runLayerStages u.2).1)).map Prod.fst := by
  intro units
  induction units with
  | nil => exact ⟨rfl, rfl⟩
  | cons u rest ih =>
    by_cases hu : (runLayerStages u.2).1
    · constructor
      · simp [runPipelineUnits, List.filter_cons, hu, ih.1]
      · simp [runPipelineUnits, List.filter_cons, hu, ih.2]
    · constructor
      · simp [runPipelineUnits, List.filter_cons, hu, ih.1]
      · simp [runPipelineUnits, List.filter_cons, hu, ih.2]

/-- Claim C8.  A raising stage aborts only the remainder of its own unit
and is caught at the unit boundary (the unit returns a failure flag);
every unit of the list is still classified, in order, as successful or
failed; and the process exit signal is nonzero exactly when at least one
unit failed. -/
theorem pipeline_failure_isolation :
    (∀ (stages : List (Option ℕ)) (i : ℕ) (e : ℕ),
        stages[i]? = some (some e) →
        (∀ j < i, stages[j]? = some none) →
        runLayerStages stages = (false, i + 1))
    ∧ (∀ units : List (ℕ × List (Option ℕ)),
        (runPipelineUnits units).1
            = (units.filter (fun u => (runLayerStages u.2).1)).map Prod.fst
        ∧ (runPipelineUnits units).2
            = (units.filter (fun u => !(runLayerStages u.2).1)).map Prod.fst)
    ∧ (∀ units : List (ℕ × List (Option ℕ)),
        pipelineExitCode units ≠ 0
          ↔ ∃ u ∈ units, (runLayerStages u.2).1 = false) := by
  refine ⟨runLayerStages_first_failure, runPipelineUnits_partition, ?_⟩
  intro units
  by_cases hf : (runPipelineUnits units).2 = []
  · rw [pipelineExitCode, if_pos hf]
    constructor
    · intro hcon
      exact absurd rfl hcon
    · rintro ⟨u, hu, hfail⟩
      exfalso
      have h2 := (runPipelineUnits_partition units).2
      rw [hf] at h2
      have hfilter := List.map_eq_nil_iff.mp h2.symm
      have hnot := List.filter_eq_nil_iff.mp hfilter u hu
      rw [Bool.not_eq_true'] at hnot
      exact hnot hfail
  · rw [pipelineExitCode, if_neg hf]
    constructor
    · intro _
      have h2 := (runPipelineUnits_partition units).2
      have hfilter : units.filter (fun u => !(runLayerStages u.2).1) ≠ [] := by
        intro hc
        rw [h2, hc] at hf
        exact hf rfl
      obtain ⟨u, hu⟩ := List.exists_mem_of_ne_nil _ hfilter
      have hm := List.mem_filter.mp hu
      refine ⟨u, hm.1, ?_⟩
      have hb := hm.2
      rwa [Bool.not_eq_true'] at hb
    · intro _
      norm_num

/-- Witness for `pipeline_failure_isolation`: a unit whose second stage
raises, followed by a unit that succeeds. -/
theorem pipeline_failure_isolation_witness :
    runLayerStages [none, some 3, none] = (false, 2)
    ∧ runPipelineUnits [(7, [none, some 3, none]), (8, [none])] = ([8], [7])
    ∧ pipelineExitCode [(7, [none, some 3, none]), (8, [none])] = 1 := by
  refine ⟨pipeline_failure_isolation.1 [none, some 3, none] 1 3 rfl ?_, rfl, rfl⟩
  intro j hj
  have hj0 : j = 0 := by omega
  subst hj0
  rfl

/-- Sum of a list after subtracting a constant from a projection. -/
theorem sum_map_sub_const (l : List (ℚ × ℚ × ℚ)) (f : (ℚ × ℚ × ℚ) → ℚ) (k : ℚ) :
    (l.map (fun p => f p - k)).sum = (l.map f).sum - l.length * k := by
  induction l with
  | nil => simp
  | cons a rest ih =>
    simp only [List.map_cons, List.sum_cons, ih, List.length_cons]
    push_cast
    ring

/-- The maximal absolute coordinate is nonnegative. -/
theorem maxAbsCoord_nonneg (ps : List (ℚ × ℚ × ℚ)) : 0 ≤ maxAbsCoord ps := by
  induction ps with
  | nil => exact le_refl 0
  | cons a rest ih =>
    simp only [maxAbsCoord, List.map_cons, List.foldr_cons]
    exact le_trans ih (le_max_right _ _)

/-- Every coordinate of a member is bounded by the maximal absolute
coordinate. -/
theorem le_maxAbsCoord (ps : List (ℚ × ℚ × ℚ)) (p : ℚ × ℚ × ℚ) (hp : p ∈ ps) :
    |p.1| ≤ maxAbsCoord ps ∧ |p.2.1| ≤ maxAbsCoord ps ∧ |p.2.2| ≤ maxAbsCoord ps := by
  induction ps with
  | nil => simp at hp
  | cons a rest ih =>
    simp only [maxAbsCoord, List.map_cons, List.foldr_cons]
    rcases List.mem_cons.mp hp with rfl | hmem
    · refine ⟨?_, ?_, ?_⟩
      · exact le_trans (le_max_left _ _) (le_max_left _ _)
      · exact le_trans (le_trans (le_max_left _ _) (le_max_right _ _)) (le_max_left _ _)
      · exact le_trans (le_trans (le_max_right _ _) (le_max_right _ _)) (le_max_left _ _)
    · have hih := ih hmem
      simp only [maxAbsCoord] at hih
      exact ⟨le_trans hih.1 (le_max_right _ _),
        le_trans hih.2.1 (le_max_right _ _),
        le_trans hih.2.2 (le_max_right _ _)⟩

/-- Scaling all coordinates by a nonnegative factor scales the maximal
absolute coordinate. -/
theorem maxAbsCoord_scale (k : ℚ) (hk : 0 ≤ k) (ps : List (ℚ × ℚ × ℚ)) :
    maxAbsCoord (ps.map (fun p => (p.1 * k, p.2.1 * k, p.2.2 * k)))
      = maxAbsCoord ps * k := by
  induction ps with
  | nil => simp [maxAbsCoord]
  | cons a rest ih =>
    simp only [maxAbsCoord, List.map_cons, List.foldr_cons] at ih ⊢
    rw [ih, abs_mul, abs_mul, abs_mul, abs_of_nonneg hk]
    rw [← max_mul_of_nonneg _ _ hk, ← max_mul_of_nonneg _ _ hk,
      ← max_mul_of_nonneg _ _ hk]

/-- Claim C10.  `normalize_positions` first mean-centers each axis (the
centered coordinates of every axis sum to zero), and its output always
lies in `[-50, 50]` coordinatewise; whenever the centered positions are
not all zero the maximal absolute output coordinate is exactly 50. -/
theorem normalizePositions_centered_bounded (ps : List (ℚ × ℚ × ℚ))
    (hne : ps ≠ []) :
    ((meanCenter ps).map (fun p => p.1)).sum = 0
    ∧ ((meanCenter ps).map (fun p => p.2.1)).sum = 0
    ∧ ((meanCenter ps).map (fun p => p.2.2)).sum = 0
    ∧ (∀ p ∈ normalizePositions 50 ps,
        |p.1| ≤ 50 ∧ |p.2.1| ≤ 50 ∧ |p.2.2| ≤ 50)
    ∧ (maxAbsCoord (meanCenter ps) ≠ 0 →
        maxAbsCoord (normalizePositions 50 ps) = 50) := by
  have hlen : (ps.length : ℚ) ≠ 0 := by
    have := List.length_pos.mpr hne
    positivity
  refine ⟨?_, ?_, ?_, ?_, ?_⟩
  · have hmm : (meanCenter ps).map (fun p => p.1)
        = ps.map (fun p => p.1 - (ps.map (fun q => q.1)).sum / ps.length) := by
      simp [meanCenter]
    rw [hmm, sum_map_sub_const]
    field_simp
  · have hmm : (meanCenter ps).map (fun p => p.2.1)
        = ps.map (fun p => p.2.1 - (ps.map (fun q => q.2.1)).sum / ps.length) := by
      simp [meanCenter]
    rw [hmm, sum_map_sub_const]
    field_simp
  · have hmm : (meanCenter ps).map (fun p => p.2.2)
        = ps.map (fun p => p.2.2 - (ps.map (fun q => q.2.2)).sum / ps.length) := by
      simp [meanCenter]
    rw [hmm, sum_map_sub_const]
    field_simp
  · intro p hp
    by_cases hm : 0 < maxAbsCoord (meanCenter ps)
    · rw [normalizePositions, if_pos hm] at hp
      obtain ⟨c, hc, rfl⟩ := List.mem_map.mp hp
      have hb := le_maxAbsCoord (meanCenter ps) c hc
      have hkpos : (0 : ℚ) ≤ 50 / maxAbsCoord (meanCenter ps) := by positivity
      have hmul : maxAbsCoord (meanCenter ps) * (50 / maxAbsCoord (meanCenter ps))
          = 50 := by
        field_simp
      refine ⟨?_, ?_, ?_⟩
      · rw [abs_mul, abs_of_nonneg hkpos]
        calc |c.1| * (50 / maxAbsCoord (meanCenter ps))
            ≤ maxAbsCoord (meanCenter ps) * (50 / maxAbsCoord (meanCenter ps)) :=
              mul_le_mul_of_nonneg_right hb.1 hkpos
          _ = 50 := hmul
      · rw [abs_mul, abs_of_nonneg hkpos]
        calc |c.2.1| * (50 / maxAbsCoord (meanCenter ps))
            ≤ maxAbsCoord (meanCenter ps) * (50 / maxAbsCoord (meanCenter ps)) :=
              mul_le_mul_of_nonneg_right hb.2.1 hkpos
          _ = 50 := hmul
      · rw [abs_mul, abs_of_nonneg hkpos]
        calc |c.2.2| * (50 / maxAbsCoord (meanCenter ps))
            ≤ maxAbsCoord (meanCenter ps) * (50 / maxAbsCoord (meanCenter ps)) :=
              mul_le_mul_of_nonneg_right hb.2.2 hkpos
          _ = 50 := hmul
    · rw [normalizePositions, if_neg hm] at hp
      have hzero : maxAbsCoord (meanCenter ps) = 0 :=
        le_antisymm (not_lt.mp hm) (maxAbsCoord_nonneg _)
      have hb := le_maxAbsCoord (meanCenter ps) p hp
      rw [hzero] at hb
      refine ⟨by linarith [hb.1], by linarith [hb.2.1], by linarith [hb.2.2]⟩
  · intro hm0
    have hm : 0 < maxAbsCoord (meanCenter ps) :=
      lt_of_le_of_ne (maxAbsCoord_nonneg _) (Ne.symm hm0)
    rw [normalizePositions, if_pos hm]
    rw [maxAbsCoord_scale (50 / maxAbsCoord (meanCenter ps)) (by positivity)]
    field_simp

/-- Witness for `normalizePositions_centered_bounded` at the two-point
input `[(0,0,0), (2,0,0)]`. -/
theorem normalizePositions_centered_bounded_witness :
    maxAbsCoord (normalizePositions 50 [((0 : ℚ), 0, 0), (2, 0, 0)]) = 50 :=
  (normalizePositions_centered_bounded [((0 : ℚ), 0, 0), (2, 0, 0)]
    (by simp)).2.2.2.2 (by norm_num [meanCenter, maxAbsCoord])

/-- Unfolding rule for `pickMin` when the examined candidate is strictly
better (smaller distance, or equal distance and smaller index). -/
theorem pickMin_cons_better {α : Type} [LinearOrderedField α]
    (i j : ℕ) (a b : α) (rest : List (ℕ × α))
    (h : b < a ∨ (b = a ∧ j < i)) :
    pickMin (i, a) ((j, b) :: rest)
      = ((pickMin (j, b) rest).1, (i, a) :: (pickMin (j, b) rest).2) := by
  rw [pickMin, if_pos h]

/-- Unfolding rule for `pickMin` when the examined candidate is not
better than the current best. -/
theorem pickMin_cons_worse {α : Type} [LinearOrderedField α]
    (i j : ℕ) (a b : α) (rest : List (ℕ × α))
    (h : ¬(b < a ∨ (b = a ∧ j < i))) :
    pickMin (i, a) ((j, b) :: rest)
      = ((pickMin (i, a) rest).1, (j, b) :: (pickMin (i, a) rest).2) := by
  rw [pickMin, if_neg h]



/-- Base case of `pickMin`. -/
theorem pickMin_nil {α : Type} [LinearOrderedField α] (best : ℕ × α) :
    pickMin best ([] : List (ℕ × α)) = (best, []) := rfl

/-- Claim C9.  On the four 2D unit vectors at angles 0, 10, 90 and 180
degrees with `top_k = 1`, `min_similarity = 1/2` and deduplication on,
`compute_edges` emits exactly one edge, from the 0-degree vector to the
10-degree vector, of weight `cos(10 degrees)`, which lies in
`(0.984, 1)` (so is about 0.985); no edge touches the 90- or 180-degree
vectors. -/
theorem computeEdges_four_angles :
    computeEdges [[(1 : ℝ), 0],
        [Real.cos (Real.pi / 18), Real.sin (Real.pi / 18)],
        [0, 1], [-1, 0]] 1 (1 / 2) true
      = [⟨0, 1, Real.cos (Real.pi / 18)⟩]
    ∧ (0.984 : ℝ) < Real.cos (Real.pi / 18)
    ∧ Real.cos (Real.pi / 18) < 1 := by
  have hpi := Real.pi_pos
  set c := Real.cos (Real.pi / 18) with hcdef
  set s := Real.sin (Real.pi / 18) with hsdef
  have hc1 : c < 1 := by
    have h := Real.cos_lt_cos_of_nonneg_of_le_pi (le_refl 0)
      (by linarith : Real.pi / 18 ≤ Real.pi) (by linarith : (0:ℝ) < Real.pi / 18)
    rwa [Real.cos_zero] at h
  have hc2 : 1 / 2 < c := by
    have h := Real.cos_lt_cos_of_nonneg_of_le_pi
      (by linarith : (0:ℝ) ≤ Real.pi / 18)
      (by linarith : Real.pi / 3 ≤ Real.pi)
      (by linarith : Real.pi / 18 < Real.pi / 3)
    rwa [Real.cos_pi_div_three] at h
  have hs1 : 0 < s := Real.sin_pos_of_pos_of_lt_pi (by linarith) (by linarith)
  have hs2 : s < 1 / 2 := by
    have h := Real.sin_lt_sin_of_lt_of_le_pi_div_two
      (by linarith : -(Real.pi / 2) ≤ Real.pi / 18)
      (by linarith : Real.pi / 6 ≤ Real.pi / 2)
      (by linarith : Real.pi / 18 < Real.pi / 6)
    rwa [Real.sin_pi_div_six] at h
  have hcs : c * c + s * s = 1 := by
    have h := Real.cos_sq_add_sin_sq (Real.pi / 18)
    rw [show c * c = c ^ 2 by ring, show s * s = s ^ 2 by ring]
    exact h
  have hrange : List.range 4 = [0, 1, 2, 3] := by rfl
  have hcand0 : cand [[(1 : ℝ), 0], [c, s], [0, 1], [-1, 0]] 0
      = [(0, (0:ℝ)), (1, 1 - c), (2, 1), (3, 2)] := by
    simp only [cand, List.length_cons, List.length_nil, hrange,
      List.map_cons, List.map_nil, List.getD_cons_zero, List.getD_cons_succ]
    norm_num [dotL]
  have hcand1 : cand [[(1 : ℝ), 0], [c, s], [0, 1], [-1, 0]] 1
      = [(0, 1 - c), (1, (0:ℝ)), (2, 1 - s), (3, 1 + c)] := by
    simp only [cand, List.length_cons, List.length_nil, hrange,
      List.map_cons, List.map_nil, List.getD_cons_zero, List.getD_cons_succ]
    norm_num [dotL]
    linarith [hcs]
  have hcand2 : cand [[(1 : ℝ), 0], [c, s], [0, 1], [-1, 0]] 2
      = [(0, (1:ℝ)), (1, 1 - s), (2, 0), (3, 1)] := by
    simp only [cand, List.length_cons, List.length_nil, hrange,
      List.map_cons, List.map_nil, List.getD_cons_zero, List.getD_cons_succ]
    norm_num [dotL]
  have hcand3 : cand [[(1 : ℝ), 0], [c, s], [0, 1], [-1, 0]] 3
      = [(0, (2:ℝ)), (1, 1 + c), (2, 1), (3, 0)] := by
    simp only [cand, List.length_cons, List.length_nil, hrange,
      List.map_cons, List.map_nil, List.getD_cons_zero, List.getD_cons_succ]
    norm_num [dotL]
  have hrow0 : kneighborsRow [[(1 : ℝ), 0], [c, s], [0, 1], [-1, 0]] 2 0
      = ([(0, (0:ℝ)), (1, 1 - c)] : List (ℕ × ℝ)) := by
    rw [kneighborsRow, hcand0]
    rw [selectK]
    rw [pickMin_cons_worse 0 1 ((0:ℝ)) (1 - c) _ (by rintro (h | ⟨h1, h2⟩) <;> linarith)]
    rw [pickMin_cons_worse 0 2 ((0:ℝ)) ((1:ℝ)) _ (by rintro (h | ⟨h1, h2⟩) <;> linarith)]
    rw [pickMin_cons_worse 0 3 ((0:ℝ)) ((2:ℝ)) _ (by rintro (h | ⟨h1, h2⟩) <;> linarith)]
    rw [pickMin_nil]
    dsimp only
    rw [selectK]
    rw [pickMin_cons_worse 1 2 (1 - c) ((1:ℝ)) _ (by rintro (h | ⟨h1, h2⟩) <;> linarith)]
    rw [pickMin_cons_worse 1 3 (1 - c) ((2:ℝ)) _ (by rintro (h | ⟨h1, h2⟩) <;> linarith)]
    rw [pickMin_nil]
    dsimp only
    rw [selectK]
  have hrow1 : kneighborsRow [[(1 : ℝ), 0], [c, s], [0, 1], [-1, 0]] 2 1
      = ([(1, (0:ℝ)), (0, 1 - c)] : List (ℕ × ℝ)) := by
    rw [kneighborsRow, hcand1]
    rw [selectK]
    rw [pickMin_cons_better 0 1 (1 - c) ((0:ℝ)) _ (Or.inl (by linarith))]
    rw [pickMin_cons_worse 1 2 ((0:ℝ)) (1 - s) _ (by rintro (h | ⟨h1, h2⟩) <;> linarith)]
    rw [pickMin_cons_worse 1 3 ((0:ℝ)) (1 + c) _ (by rintro (h | ⟨h1, h2⟩) <;> linarith)]
    rw [pickMin_nil]
    dsimp only
    rw [selectK]
    rw [pickMin_cons_worse 0 2 (1 - c) (1 - s) _ (by rintro (h | ⟨h1, h2⟩) <;> linarith)]
    rw [pickMin_cons_worse 0 3 (1 - c) (1 + c) _ (by rintro (h | ⟨h1, h2⟩) <;> linarith)]
    rw [pickMin_nil]
    dsimp only
    rw [selectK]
  have hrow2 : kneighborsRow [[(1 : ℝ), 0], [c, s], [0, 1], [-1, 0]] 2 2
      = ([(2, (0:ℝ)), (1, 1 - s)] : List (ℕ × ℝ)) := by
    rw [kneighborsRow, hcand2]
    rw [selectK]
    rw [pickMin_cons_better 0 1 ((1:ℝ)) (1 - s) _ (Or.inl (by linarith))]
    rw [pickMin_cons_better 1 2 (1 - s) ((0:ℝ)) _ (Or.inl (by linarith))]
    rw [pickMin_cons_worse 2 3 ((0:ℝ)) ((1:ℝ)) _ (by rintro (h | ⟨h1, h2⟩) <;> linarith)]
    rw [pickMin_nil]
    dsimp only
    rw [selectK]
    rw [pickMin_cons_better 0 1 ((1:ℝ)) (1 - s) _ (Or.inl (by linarith))]
    rw [pickMin_cons_worse 1 3 (1 - s) ((1:ℝ)) _ (by rintro (h | ⟨h1, h2⟩) <;> linarith)]
    rw [pickMin_nil]
    dsimp only
    rw [selectK]
  have hrow3 : kneighborsRow [[(1 : ℝ), 0], [c, s], [0, 1], [-1, 0]] 2 3
      = ([(3, (0:ℝ)), (2, (1:ℝ))] : List (ℕ × ℝ)) := by
    rw [kneighborsRow, hcand3]
    rw [selectK]
    rw [pickMin_cons_better 0 1 ((2:ℝ)) (1 + c) _ (Or.inl (by linarith))]
    rw [pickMin_cons_better 1 2 (1 + c) ((1:ℝ)) _ (Or.inl (by linarith))]
    rw [pickMin_cons_better 2 3 ((1:ℝ)) ((0:ℝ)) _ (Or.inl (by linarith))]
    rw [pickMin_nil]
    dsimp only
    rw [selectK]
    rw [pickMin_cons_better 0 1 ((2:ℝ)) (1 + c) _ (Or.inl (by linarith))]
    rw [pickMin_cons_better 1 2 (1 + c) ((1:ℝ)) _ (Or.inl (by linarith))]
    rw [pickMin_nil]
    dsimp only
    rw [selectK]
  have htrip : neighborTriples [[(1 : ℝ), 0], [c, s], [0, 1], [-1, 0]] 1
      = [((0:ℕ), (1:ℕ), c), ((1:ℕ), (0:ℕ), c), ((2:ℕ), (1:ℕ), s), ((3:ℕ), (2:ℕ), (0:ℝ))] := by
    rw [neighborTriples]
    simp only [List.length_cons, List.length_nil, hrange, List.map_cons, List.map_nil]
    rw [hrow0, hrow1, hrow2, hrow3]
    simp only [List.drop_succ_cons, List.drop_zero, List.map_cons, List.map_nil,
      List.flatten_cons, List.flatten_nil, List.cons_append, List.nil_append,
      List.cons.injEq, Prod.mk.injEq]
    norm_num
  have hmain : computeEdges [[(1 : ℝ), 0], [c, s], [0, 1], [-1, 0]] 1 (1 / 2) true
      = [⟨0, 1, c⟩] := by
    rw [computeEdges, htrip]
    rw [edgeLoop, if_neg (by dsimp only; linarith : ¬(((0:ℕ), (1:ℕ), c).2.2 < (1:ℝ) / 2)),
      if_pos rfl, if_neg (by simp : ¬((min (0:ℕ) (1:ℕ), max (0:ℕ) (1:ℕ)) ∈ ([] : List (ℕ × ℕ))))]
    rw [edgeLoop, if_neg (by dsimp only; linarith : ¬(((1:ℕ), (0:ℕ), c).2.2 < (1:ℝ) / 2)),
      if_pos rfl, if_pos (by norm_num : (min (1:ℕ) (0:ℕ), max (1:ℕ) (0:ℕ)) ∈ [(min (0:ℕ) (1:ℕ), max (0:ℕ) (1:ℕ))])]
    rw [edgeLoop, if_pos (by dsimp only; linarith : ((2:ℕ), (1:ℕ), s).2.2 < (1:ℝ) / 2)]
    rw [edgeLoop, if_pos (by norm_num : ((3:ℕ), (2:ℕ), (0:ℝ)).2.2 < (1:ℝ) / 2)]
    rw [edgeLoop]
  refine ⟨hmain, ?_, hc1⟩
  have hne18 : Real.pi / 18 ≠ 0 := by positivity
  have hb := Real.one_sub_sq_div_two_lt_cos hne18
  rw [← hcdef] at hb
  nlinarith [Real.pi_lt_d2, Real.pi_pos, hb]

end Horus
